import Mathlib

/-
Shallow embedding of the x2gether simulation engine (src/types.ts).

JavaScript numbers are modelled as exact rationals (ℚ); Date.now() is an
injected `now` parameter per call; Math.random() is an injected stream of
naturals `rand` reduced modulo the live pool size; uuidv4() is an injected
`fresh` natural, kept disjoint from the reserved PROTOCOL_SEED sentinel by
construction of `PlayerId`.
-/

/-- Participant identifiers: the reserved PROTOCOL_SEED sentinel or an
opaque user id drawn from uuidv4. -/
inductive PlayerId where
  | seed : PlayerId
  | user : Nat → PlayerId
  deriving DecidableEq, Repr

/-- Participant record (the `Player` interface). The `multiplier` field is
declared on the interface but the object literal in `processDeposit` omits
it, so it is modelled as an `Option` that creation leaves at `none`. -/
structure Player where
  id : PlayerId
  deposit : ℚ
  target : ℚ
  collected : ℚ
  entryRound : Nat
  timestamp : ℚ
  slashed : Bool
  multiplier : Option ℚ
  deriving DecidableEq, Repr

/-- Distribution strategies (the `DistributionStrategy` enum). -/
inductive DistributionStrategy where
  | STANDARD : DistributionStrategy
  | COMMUNITY_YIELD : DistributionStrategy
  deriving DecidableEq, Repr

/-- Engine configuration: the React state the engine closures read
(base multiplier, strategy, and the three feature toggles). -/
structure Config where
  multiplier : ℚ
  strategy : DistributionStrategy
  guillotineEnabled : Bool
  dynamicDecayEnabled : Bool
  winnersTaxEnabled : Bool
  deriving DecidableEq, Repr

/-- Telemetry sample (the `ChartDataPoint` interface). -/
structure ChartDataPoint where
  round : ℚ
  usersTrapped : Nat
  requiredNewLiquidity : ℚ
  deriving DecidableEq, Repr

/-- Mutable engine state (the `EngineState` interface behind `engine.current`). -/
structure EngineState where
  queue : List Player
  historyCount : Nat
  historySum : ℚ
  totalDeposited : ℚ
  protocolBalance : ℚ
  currentRound : Nat
  chartData : List ChartDataPoint
  tickCount : Nat
  deriving DecidableEq, Repr

def INITIAL_RESERVE : ℚ := 1000

def FEE_PERCENT : ℚ := 1/100

def GUILLOTINE_INTERVAL : Nat := 60

/-- The exit-sweep tolerance (the 0.01 literal). -/
def EPSILON : ℚ := 1/100

/-- Remaining liability of a participant (`target − collected`). -/
def remainingLiability (p : Player) : ℚ := p.target - p.collected

/-- Stable insertion into a list sorted descending by remaining liability:
an already placed entry stays in front only when it is strictly larger, so
equal keys keep original queue order, mirroring the stable JS sort. -/
def insertByLiability (x : Nat × Player) : List (Nat × Player) → List (Nat × Player)
  | [] => [x]
  | y :: ys =>
    if remainingLiability x.2 < remainingLiability y.2 then y :: insertByLiability x ys
    else x :: y :: ys

/-- Stable descending sort by remaining liability (insertion sort). -/
def sortByLiability (l : List (Nat × Player)) : List (Nat × Player) :=
  l.foldr insertByLiability []

/-- The guillotine candidate pool: queue positions of the non-slashed
members, ranked descending by remaining liability, truncated to the top 30. -/
def guillotineCandidates (q : List Player) : List (Nat × Player) :=
  (sortByLiability (q.enum.filter (fun ip => !ip.2.slashed))).take 30

/-- Victim draw without replacement: at step `used` the entry at position
`rand used % pool.length` is taken and removed from the pool, mirroring
`Math.floor(Math.random() * pool.length)` plus `splice`. -/
def pickVictims (rand : Nat → Nat) : Nat → Nat → List (Nat × Player) → List (Nat × Player)
  | _, 0, _ => []
  | _, _ + 1, [] => []
  | used, k + 1, x :: xs =>
    let pool := x :: xs
    let j := rand used % pool.length
    pool.getD j x :: pickVictims rand (used + 1) k (pool.eraseIdx j)

/-- The per-victim mutation in `triggerGuillotine`: a 20% haircut of the
current target plus the slashed flag. -/
def slashPlayer (p : Player) : Player :=
  { p with target := p.target * (80/100), slashed := true }

/-- Slash the queue members whose positions are listed in `victims`. -/
def slashAt (victims : List Nat) (q : List Player) : List Player :=
  q.enum.map (fun ip => if ip.1 ∈ victims then slashPlayer ip.2 else ip.2)

/-- One guillotine slashing event (`triggerGuillotine`): no-op below 5 queue
members; otherwise up to 10 distinct victims drawn from the top-30 candidate
pool each get a 20% target haircut and the slashed flag. -/
def triggerGuillotine (rand : Nat → Nat) (s : EngineState) : EngineState :=
  if s.queue.length < 5 then s
  else
    let cands := guillotineCandidates s.queue
    if cands.length = 0 then s
    else
      let victims := (pickVictims rand 0 10 cands).map Prod.fst
      { s with queue := slashAt victims s.queue }

/-- FIFO head allocation (step 6 of `processDeposit`): pay each queued
member up to its remaining need until the pool runs out; returns the unspent
remainder and the updated queue. -/
def distributeHead : ℚ → List Player → ℚ × List Player
  | remaining, [] => (remaining, [])
  | remaining, p :: ps =>
    if remaining ≤ 0 then (remaining, p :: ps)
    else
      let needed := p.target - p.collected
      if needed ≤ 0 then
        let r := distributeHead remaining ps
        (r.1, p :: r.2)
      else if remaining < needed then
        (0, { p with collected := p.collected + remaining } :: ps)
      else
        let r := distributeHead (remaining - needed) ps
        (r.1, { p with collected := p.collected + needed } :: r.2)

/-- Result of the cleanup sweep: surviving queue, winners-tax total, and the
exit counters added to `historyCount` and `historySum`. -/
structure SweepResult where
  stays : List Player
  tax : ℚ
  exitCount : Nat
  exitSum : ℚ
  deriving DecidableEq, Repr

/-- Exit-sweep condition: collected within EPSILON of target. -/
def exitReady (p : Player) : Bool := p.target - EPSILON ≤ p.collected

/-- Winners tax charged for one exiting participant: 20% of profit when the
toggle is on, the current deposit call is not a system seed, and the exit
comes within 10000 ms of entry; profit is computed after the clamp of
collected to target, hence equals `target − deposit`. -/
def taxOf (winnersTax : Bool) (isSystem : Bool) (now : ℚ) (p : Player) : ℚ :=
  if winnersTax ∧ ¬isSystem ∧ now - p.timestamp < 10000 ∧ 0 < p.target - p.deposit then
    (p.target - p.deposit) * (20/100)
  else 0

/-- The cleanup sweep (step 8 of `processDeposit`): removes participants
within EPSILON of their target, clamps their recorded collected to target,
applies the winners tax, and accumulates the exit counters. -/
def sweep (winnersTax : Bool) (isSystem : Bool) (now : ℚ) : List Player → SweepResult
  | [] => ⟨[], 0, 0, 0⟩
  | p :: ps =>
    let r := sweep winnersTax isSystem now ps
    if exitReady p then
      ⟨r.stays, taxOf winnersTax isSystem now p + r.tax, r.exitCount + 1, p.target + r.exitSum⟩
    else ⟨p :: r.stays, r.tax, r.exitCount, r.exitSum⟩

/-- Outstanding liability over the queue (the `reduce` in step 9). -/
def outstandingLiability (q : List Player) : ℚ :=
  q.foldl (fun acc p => acc + (p.target - p.collected)) 0

/-- Steps 0 and GUILLOTINE CHECK of `processDeposit`: tick the event counter
and fire the guillotine every GUILLOTINE_INTERVAL ticks when enabled. -/
def tickAndGuillotine (cfg : Config) (rand : Nat → Nat) (s : EngineState) : EngineState :=
  let s1 := { s with tickCount := s.tickCount + 1 }
  if cfg.guillotineEnabled ∧ s1.tickCount % GUILLOTINE_INTERVAL = 0 then
    triggerGuillotine rand s1
  else s1

/-- The fee charged on a non-system deposit (`max(1, amount × FEE_PERCENT)`). -/
def feeOf (amount : ℚ) : ℚ := max 1 (amount * FEE_PERCENT)

/-- The net amount left after the fee; system seeds bypass the fee. -/
def netOf (amount : ℚ) (isSystem : Bool) : ℚ :=
  if isSystem then amount else amount - feeOf amount

/-- The head pool of a net amount under the active strategy. -/
def headPoolOf (cfg : Config) (net : ℚ) : ℚ :=
  match cfg.strategy with
  | .STANDARD => net
  | .COMMUNITY_YIELD => net * (80/100)

/-- The yield pool of a net amount under the active strategy. -/
def yieldPoolOf (cfg : Config) (net : ℚ) : ℚ :=
  match cfg.strategy with
  | .STANDARD => 0
  | .COMMUNITY_YIELD => net * (20/100)

/-- Effective multiplier after dynamic decay: lose 0.05 per full block of 10
queued members, floored at 1.1; system seeds use the base multiplier. -/
def effMultOf (cfg : Config) (isSystem : Bool) (queueLen : Nat) : ℚ :=
  if cfg.dynamicDecayEnabled ∧ ¬isSystem then
    max (11/10) (cfg.multiplier - ((queueLen / 10 : Nat) : ℚ) * (5/100))
  else cfg.multiplier

/-- The participant object created in step 4 of `processDeposit` (note the
absent `multiplier` field of the object literal, modelled as `none`). -/
def mkPlayer (cfg : Config) (now : ℚ) (fresh : Nat) (amount : ℚ) (isSystem : Bool)
    (queueLen round : Nat) : Player :=
  { id := if isSystem then .seed else .user fresh
    deposit := amount
    target := amount * effMultOf cfg isSystem queueLen
    collected := 0
    entryRound := round
    timestamp := now
    slashed := false
    multiplier := none }

/-- Step 5 of `processDeposit`: share the yield pool evenly over the current
queue (no capping at target), only when the pool is positive and the queue
non-empty. -/
def applyYield (yieldPool : ℚ) (q : List Player) : List Player :=
  if 0 < yieldPool ∧ 0 < q.length then
    q.map (fun p => { p with collected := p.collected + yieldPool / q.length })
  else q

/-- The queue as assembled by `processDeposit` just before the cleanup
sweep: post-guillotine queue with yield credit and head allocation applied,
then the new participant appended. -/
def preSweepQueue (cfg : Config) (rand : Nat → Nat) (now : ℚ) (fresh : Nat)
    (amount : ℚ) (isSystem : Bool) (s : EngineState) : List Player :=
  (distributeHead (headPoolOf cfg (netOf amount isSystem))
      (applyYield (yieldPoolOf cfg (netOf amount isSystem))
        (tickAndGuillotine cfg rand s).queue)).2
    ++ [mkPlayer cfg now fresh amount isSystem (tickAndGuillotine cfg rand s).queue.length
          (tickAndGuillotine cfg rand s).currentRound]

/-- One deposit (`processDeposit`). `rand` models Math.random, `now` models
Date.now(), `fresh` models the uuid drawn for a user deposit. -/
def processDeposit (cfg : Config) (rand : Nat → Nat) (now : ℚ) (fresh : Nat)
    (amount : ℚ) (isSystem : Bool) (s : EngineState) : EngineState :=
  let s2 := tickAndGuillotine cfg rand s
  let s3 := if isSystem then s2
    else { s2 with protocolBalance := s2.protocolBalance + feeOf amount }
  let s4 := { s3 with totalDeposited := s3.totalDeposited + amount }
  let r := sweep cfg.winnersTaxEnabled isSystem now
    (preSweepQueue cfg rand now fresh amount isSystem s)
  let s5 := { s4 with
      queue := r.stays
      protocolBalance := s4.protocolBalance + r.tax
      historyCount := s4.historyCount + r.exitCount
      historySum := s4.historySum + r.exitSum }
  let chart := s5.chartData ++ [⟨s5.totalDeposited, s5.queue.length, outstandingLiability s5.queue⟩]
  { s5 with chartData := if 100 < chart.length then chart.tail else chart }

/-- The settlement refund walk (REFUND PHASE of `handleMidnightReset`): pay
surplus toward each member's remaining principal in FIFO order; returns the
leftover surplus and the updated queue. -/
def refundWalk : ℚ → List Player → ℚ × List Player
  | surplus, [] => (surplus, [])
  | surplus, p :: ps =>
    if surplus ≤ 0 then (surplus, p :: ps)
    else
      let remainingPrincipal := max 0 (p.deposit - p.collected)
      if 0 < remainingPrincipal then
        let pay := min surplus remainingPrincipal
        let r := refundWalk (surplus - pay) ps
        (r.1, { p with collected := p.collected + pay } :: r.2)
      else
        let r := refundWalk surplus ps
        (r.1, p :: r.2)

/-- The midnight settlement (`handleMidnightReset`): refund surplus over the
reserve floor, wipe the queue, advance the round, and reseed with a 100-unit
system deposit when at least 100 remains. -/
def handleMidnightReset (cfg : Config) (rand : Nat → Nat) (now : ℚ) (fresh : Nat)
    (s : EngineState) : EngineState :=
  let surplus := max 0 (s.protocolBalance - INITIAL_RESERVE)
  let s1 := if 0 < surplus then
      let r := refundWalk surplus s.queue
      { s with queue := r.2, protocolBalance := INITIAL_RESERVE + r.1 }
    else s
  let s2 := { s1 with queue := [] }
  let s3 := { s2 with currentRound := s2.currentRound + 1 }
  if (100 : ℚ) ≤ s3.protocolBalance then
    processDeposit cfg rand now fresh 100 true
      { s3 with protocolBalance := s3.protocolBalance - 100 }
  else s3

/-- The initial engine state (also the `handleFullReset` target). -/
def initialState : EngineState :=
  { queue := []
    historyCount := 0
    historySum := 0
    totalDeposited := 0
    protocolBalance := INITIAL_RESERVE
    currentRound := 1
    chartData := []
    tickCount := 0 }

/-- Driver operations: the engine entry points an external caller can invoke. -/
inductive Op where
  | deposit (rand : Nat → Nat) (now : ℚ) (fresh : Nat) (amount : ℚ) (isSystem : Bool)
  | settle (rand : Nat → Nat) (now : ℚ) (fresh : Nat)
  | reset

/-- Apply one driver operation. -/
def applyOp (cfg : Config) (s : EngineState) : Op → EngineState
  | .deposit rand now fresh amount isSystem => processDeposit cfg rand now fresh amount isSystem s
  | .settle rand now fresh => handleMidnightReset cfg rand now fresh s
  | .reset => initialState

/-- Run a sequence of driver operations from the initial state. -/
def runOps (cfg : Config) (ops : List Op) : EngineState :=
  ops.foldl (applyOp cfg) initialState

/-- Sum of collected amounts over a queue. -/
def totalCollected (q : List Player) : ℚ := (q.map Player.collected).sum

/-- Sum of positive remaining needs over a queue. -/
def totalNeed (q : List Player) : ℚ := (q.map (fun p => max 0 (p.target - p.collected))).sum

/-- Sum of positive remaining principals over a queue. -/
def totalRemainingPrincipal (q : List Player) : ℚ :=
  (q.map (fun p => max 0 (p.deposit - p.collected))).sum

/-- The collected amount the sweep records for a participant: clamped to
target when within EPSILON of it, untouched otherwise. -/
def finalCollected (p : Player) : ℚ := if exitReady p then p.target else p.collected

/-- Number of PROTOCOL_SEED participants in a queue. -/
def seedCount (q : List Player) : Nat := (q.filter (fun p => p.id == PlayerId.seed)).length

/-- Fixture: STANDARD strategy, base multiplier 2, all toggles off. -/
def cfg0 : Config := ⟨2, .STANDARD, false, false, false⟩

/-- Fixture: STANDARD strategy, base multiplier 2, winners tax on. -/
def cfgT : Config := ⟨2, .STANDARD, false, false, true⟩

/-- Fixture: a constant random stream. -/
def rand0 : Nat → Nat := fun _ => 0

/-- An operation is user-driven when any deposit it performs is not a
system seed (settlement and reset are always allowed). -/
def userDriven : Op → Prop
  | .deposit _ _ _ _ isSystem => isSystem = false
  | .settle _ _ _ => True
  | .reset => True

/-- Ranking relation of the guillotine candidate sort: the earlier entry
carries at least the remaining liability of the later one. -/
def liabilityGE (a b : Nat × Player) : Prop :=
  remainingLiability b.2 ≤ remainingLiability a.2

/-- The reserve after the settlement refund phase: floor plus leftover when
there was surplus, otherwise the untouched balance (which may sit below the
floor). -/
def settledBalance (s : EngineState) : ℚ :=
  if 0 < max 0 (s.protocolBalance - INITIAL_RESERVE) then
    INITIAL_RESERVE + (refundWalk (max 0 (s.protocolBalance - INITIAL_RESERVE)) s.queue).1
  else s.protocolBalance

/-- Fixture: six queued user participants with distinct needs. -/
def stateG : EngineState :=
  { initialState with queue :=
      [⟨.user 0, 100, 200, 0, 1, 0, false, none⟩,
       ⟨.user 1, 110, 220, 0, 1, 0, false, none⟩,
       ⟨.user 2, 120, 240, 0, 1, 0, false, none⟩,
       ⟨.user 3, 130, 260, 0, 1, 0, false, none⟩,
       ⟨.user 4, 140, 280, 0, 1, 0, false, none⟩,
       ⟨.user 5, 150, 300, 0, 1, 0, false, none⟩] }

/-- Fixture: a single queued participant needing 50 more. -/
def state7 : EngineState :=
  { initialState with queue := [⟨.user 0, 100, 200, 150, 1, 0, false, none⟩] }

/-- C1: Scenario 1 under cfg0 from the empty engine: a 100 deposit charges
fee 1 (reserve 1000 → 1001, netAmount 99) and queues one participant with
deposit 100, target 200, collected 0; a following 250 deposit charges fee
2.5 (reserve 1003.5, so the unallocated 47.5 of the 247.5 net is not added
to the reserve), pays the first participant its 200 target and removes it
(exitedCount 1, exitedValueSum 200), leaving exactly one queued participant
with deposit 250, target 500, collected 0. -/
theorem scenario1_two_deposits :
    (processDeposit cfg0 rand0 0 0 100 false initialState).protocolBalance = 1001 ∧
    (processDeposit cfg0 rand0 0 0 100 false initialState).queue =
      [⟨.user 0, 100, 200, 0, 1, 0, false, none⟩] ∧
    (processDeposit cfg0 rand0 0 1 250 false
        (processDeposit cfg0 rand0 0 0 100 false initialState)).protocolBalance = 2007/2 ∧
    (processDeposit cfg0 rand0 0 1 250 false
        (processDeposit cfg0 rand0 0 0 100 false initialState)).historyCount = 1 ∧
    (processDeposit cfg0 rand0 0 1 250 false
        (processDeposit cfg0 rand0 0 0 100 false initialState)).historySum = 200 ∧
    (processDeposit cfg0 rand0 0 1 250 false
        (processDeposit cfg0 rand0 0 0 100 false initialState)).queue =
      [⟨.user 1, 250, 500, 0, 1, 0, false, none⟩] := by
  refine ⟨?_, ?_, ?_, ?_, ?_, ?_⟩ <;>
    norm_num [processDeposit, preSweepQueue, tickAndGuillotine, triggerGuillotine, feeOf, netOf, headPoolOf, yieldPoolOf, effMultOf, mkPlayer, applyYield, initialState, cfg0, rand0, distributeHead, sweep, exitReady,
      taxOf, outstandingLiability, EPSILON, FEE_PERCENT, GUILLOTINE_INTERVAL, INITIAL_RESERVE]

/-- C5 (code bug): `processDeposit` performs no input validation; the
non-positive deposit −50 mutates state: the event counter ticks, the
minimum fee 1 is still charged, totalDeposited becomes −50, and the created
participant (target −100) is immediately swept out as a counted exit. -/
theorem invalid_deposit_mutates_state :
    (processDeposit cfg0 rand0 0 0 (-50) false initialState).totalDeposited = -50 ∧
    (processDeposit cfg0 rand0 0 0 (-50) false initialState).protocolBalance = 1001 ∧
    (processDeposit cfg0 rand0 0 0 (-50) false initialState).historyCount = 1 ∧
    (processDeposit cfg0 rand0 0 0 (-50) false initialState).historySum = -100 ∧
    (processDeposit cfg0 rand0 0 0 (-50) false initialState).tickCount = 1 ∧
    processDeposit cfg0 rand0 0 0 (-50) false initialState ≠ initialState := by
  refine ⟨?_, ?_, ?_, ?_, ?_, ?_⟩ <;>
    norm_num [processDeposit, preSweepQueue, tickAndGuillotine, triggerGuillotine, feeOf, netOf, headPoolOf, yieldPoolOf, effMultOf, mkPlayer, applyYield, initialState, cfg0, rand0, distributeHead, sweep, exitReady,
      taxOf, outstandingLiability, EPSILON, FEE_PERCENT, GUILLOTINE_INTERVAL, INITIAL_RESERVE,
      EngineState.mk.injEq]

/-- C8 (code bug): the object literal creating a participant in
`processDeposit` omits the `multiplier` field that the `Player` interface
requires, so the queued participant of a fresh 100 deposit carries no entry
multiplier at all (`none`), not the effective multiplier 2 that was used to
compute its target. -/
theorem player_multiplier_unset :
    ((processDeposit cfg0 rand0 0 0 100 false initialState).queue.map Player.multiplier)
      = [none] ∧
    ((processDeposit cfg0 rand0 0 0 100 false initialState).queue.map Player.target)
      = [100 * 2] ∧
    (none : Option ℚ) ≠ some 2 := by
  refine ⟨?_, ?_, by simp⟩ <;>
    norm_num [processDeposit, preSweepQueue, tickAndGuillotine, triggerGuillotine, feeOf, netOf, headPoolOf, yieldPoolOf, effMultOf, mkPlayer, applyYield, initialState, cfg0, rand0, distributeHead, sweep, exitReady,
      taxOf, outstandingLiability, EPSILON, FEE_PERCENT, GUILLOTINE_INTERVAL, INITIAL_RESERVE]

/-- C3 counterexample: with reserveBalance 500 (below the floor) and an
empty queue, settlement does not set the reserve to floor + surplus = 1000:
the surplus is 0, the assignment is skipped because it sits inside the
`surplus > 0` branch, and after the 100-unit reseed the reserve is 400, not
the 900 the claim predicts. -/
theorem settlement_reserve_not_floored_cex :
    (handleMidnightReset cfg0 rand0 0 0
        { initialState with protocolBalance := 500 }).protocolBalance = 400 ∧
    (400 : ℚ) ≠ 900 := by
  refine ⟨?_, ?_⟩ <;>
    norm_num [handleMidnightReset, refundWalk, processDeposit, preSweepQueue, tickAndGuillotine, triggerGuillotine, feeOf, netOf, headPoolOf, yieldPoolOf, effMultOf, mkPlayer, applyYield, initialState, cfg0, rand0,
      distributeHead, sweep, exitReady, taxOf, outstandingLiability, EPSILON, FEE_PERCENT,
      GUILLOTINE_INTERVAL, INITIAL_RESERVE]

/-- C4 counterexample: a PROTOCOL_SEED participant is not exempt from the
winners tax: with the tax enabled, a seed participant (deposit 100, target
200, entry time 0) paid off by a user deposit of 300 at time 5000 is taxed
20% of its 100 profit, leaving the reserve at 1023 (1000 + fee 3 + tax 20)
instead of the untaxed 1003; the sweep condition keys on the current call
being a system seed, not on the exiting participant. -/
theorem winners_tax_taxes_seed_cex :
    (processDeposit cfgT rand0 5000 0 300 false
        { initialState with
            queue := [⟨.seed, 100, 200, 0, 1, 0, false, none⟩] }).protocolBalance = 1023 ∧
    (processDeposit cfgT rand0 5000 0 300 false
        { initialState with
            queue := [⟨.seed, 100, 200, 0, 1, 0, false, none⟩] }).historyCount = 1 ∧
    (1023 : ℚ) ≠ 1003 := by
  refine ⟨?_, ?_, ?_⟩ <;>
    norm_num [processDeposit, preSweepQueue, tickAndGuillotine, triggerGuillotine, feeOf, netOf, headPoolOf, yieldPoolOf, effMultOf, mkPlayer, applyYield, initialState, cfgT, rand0, distributeHead, sweep, exitReady,
      taxOf, outstandingLiability, EPSILON, FEE_PERCENT, GUILLOTINE_INTERVAL, INITIAL_RESERVE]

/-- C7 counterexample: against a queue holding one participant with deposit
100, target 200, collected 150 (need 50), a deposit of 50.995 has netAmount
49.995; the head allocation pays 49.995, the exit sweep then clamps the
participant to its 200 target on removal, so the recorded increase over the
pre-existing queue is 200 − 150 = 50, not min(netAmount, need) = 49.995. -/
theorem conservation_clamp_cex :
    (processDeposit cfg0 rand0 0 1 (10199/200) false
        { initialState with
            queue := [⟨.user 0, 100, 200, 150, 1, 0, false, none⟩] }).historySum = 200 ∧
    (processDeposit cfg0 rand0 0 1 (10199/200) false
        { initialState with
            queue := [⟨.user 0, 100, 200, 150, 1, 0, false, none⟩] }).queue =
      [⟨.user 1, 10199/200, 10199/100, 0, 1, 0, false, none⟩] ∧
    (200 : ℚ) - 150 ≠
      min ((10199 : ℚ)/200 - max 1 ((10199/200) * FEE_PERCENT)) (max 0 ((200 : ℚ) - 150)) := by
  refine ⟨?_, ?_, ?_⟩ <;>
    norm_num [processDeposit, preSweepQueue, tickAndGuillotine, triggerGuillotine, feeOf, netOf, headPoolOf, yieldPoolOf, effMultOf, mkPlayer, applyYield, initialState, cfg0, rand0, distributeHead, sweep, exitReady,
      taxOf, outstandingLiability, EPSILON, FEE_PERCENT, GUILLOTINE_INTERVAL, INITIAL_RESERVE]

/-- The sweep keeps exactly the members strictly below target − EPSILON. -/
theorem sweep_stays_eq (w i : Bool) (now : ℚ) (l : List Player) :
    (sweep w i now l).stays = l.filter (fun p => !exitReady p) := by
  induction l with
  | nil => rfl
  | cons p ps ih => by_cases h : exitReady p <;> simp [sweep, h, ih]

/-- The sweep's tax total is the sum of per-exit taxes over the removed
members. -/
theorem sweep_tax_eq (w i : Bool) (now : ℚ) (l : List Player) :
    (sweep w i now l).tax = ((l.filter (fun p => exitReady p)).map (taxOf w i now)).sum := by
  induction l with
  | nil => rfl
  | cons p ps ih => by_cases h : exitReady p <;> simp [sweep, h, ih]

/-- The sweep's exit counter counts the removed members. -/
theorem sweep_exitCount_eq (w i : Bool) (now : ℚ) (l : List Player) :
    (sweep w i now l).exitCount = (l.filter (fun p => exitReady p)).length := by
  induction l with
  | nil => rfl
  | cons p ps ih => by_cases h : exitReady p <;> simp [sweep, h, ih]

/-- The sweep's exit value sum adds the full target of every removed
member (their recorded collected after the clamp). -/
theorem sweep_exitSum_eq (w i : Bool) (now : ℚ) (l : List Player) :
    (sweep w i now l).exitSum = ((l.filter (fun p => exitReady p)).map Player.target).sum := by
  induction l with
  | nil => rfl
  | cons p ps ih => by_cases h : exitReady p <;> simp [sweep, h, ih]

/-- Slashing positions preserves every projection untouched by
`slashPlayer`. -/
theorem slashAt_map_proj {α : Type} (g : Player → α)
    (hg : ∀ p, g (slashPlayer p) = g p) (victims : List Nat) (q : List Player) :
    (slashAt victims q).map g = q.map g := by
  have aux : ∀ (n : Nat) (l : List Player),
      ((List.enumFrom n l).map
        (fun ip => if ip.1 ∈ victims then slashPlayer ip.2 else ip.2)).map g = l.map g := by
    intro n l
    induction l generalizing n with
    | nil => rfl
    | cons p ps ih =>
      simp only [List.enumFrom_cons, List.map_cons, ih (n + 1)]
      by_cases h : n ∈ victims <;> simp [h, hg]
  exact aux 0 q

/-- Slashing positions preserves queue length. -/
theorem slashAt_length (victims : List Nat) (q : List Player) :
    (slashAt victims q).length = q.length := by
  simp [slashAt]

/-- Slashing an empty set of positions is the identity. -/
theorem slashAt_nil (q : List Player) : slashAt [] q = q := by
  have aux : ∀ (n : Nat) (l : List Player),
      (List.enumFrom n l).map
        (fun ip : Nat × Player => if ip.1 ∈ ([] : List Nat) then slashPlayer ip.2 else ip.2) = l := by
    intro n l
    induction l generalizing n with
    | nil => rfl
    | cons p ps ih => simp [List.enumFrom_cons, ih (n + 1)]
  exact aux 0 q

/-- The guillotine only ever rewrites the queue through `slashAt`. -/
theorem triggerGuillotine_shape (rand : Nat → Nat) (s : EngineState) :
    ∃ victims : List Nat,
      triggerGuillotine rand s = { s with queue := slashAt victims s.queue } := by
  by_cases h1 : s.queue.length < 5
  · exact ⟨[], by simp [triggerGuillotine, h1, slashAt_nil]⟩
  · by_cases h2 : (guillotineCandidates s.queue).length = 0
    · exact ⟨[], by simp [triggerGuillotine, h1, h2, slashAt_nil]⟩
    · exact ⟨(pickVictims rand 0 10 (guillotineCandidates s.queue)).map Prod.fst,
        by simp [triggerGuillotine, h1, h2]⟩

/-- A list is a permutation of any element consed onto its removal. -/
theorem perm_get_cons_eraseIdx {α : Type} :
    ∀ (l : List α) (j : Nat) (h : j < l.length), l.Perm (l.get ⟨j, h⟩ :: l.eraseIdx j)
  | _ :: _, 0, _ => by simp [List.eraseIdx]
  | a :: t, j + 1, h => by
    have h' : j < t.length := by simpa using h
    have step := perm_get_cons_eraseIdx t j h'
    show (a :: t).Perm (t.get ⟨j, h'⟩ :: a :: t.eraseIdx j)
    exact (step.cons a).trans (List.Perm.swap _ _ _)

/-- The victim draw takes a sub-permutation of the pool. -/
theorem pickVictims_perm (rand : Nat → Nat) :
    ∀ (k used : Nat) (pool : List (Nat × Player)),
      ∃ rest, pool.Perm (pickVictims rand used k pool ++ rest)
  | 0, _, pool => ⟨pool, by simp [pickVictims]⟩
  | _ + 1, _, [] => ⟨[], by simp [pickVictims]⟩
  | k + 1, used, x :: xs => by
    obtain ⟨rest, hrest⟩ :=
      pickVictims_perm rand k (used + 1) ((x :: xs).eraseIdx (rand used % (x :: xs).length))
    have hj : rand used % (x :: xs).length < (x :: xs).length :=
      Nat.mod_lt _ (by simp)
    refine ⟨rest, ?_⟩
    have base := perm_get_cons_eraseIdx (x :: xs) _ hj
    have comb := base.trans (hrest.cons ((x :: xs).get ⟨_, hj⟩))
    have hpick : pickVictims rand used (k + 1) (x :: xs)
        = (x :: xs).get ⟨rand used % (x :: xs).length, hj⟩
          :: pickVictims rand (used + 1) k
              ((x :: xs).eraseIdx (rand used % (x :: xs).length)) := by
      have hj2 : rand used % (xs.length + 1) < (x :: xs).length := by simpa using hj
      simp [pickVictims, List.getD, List.getElem?_eq_getElem hj2, List.get_eq_getElem]
    rw [hpick]
    exact comb

/-- The victim draw takes exactly min(k, pool size) entries. -/
theorem pickVictims_length (rand : Nat → Nat) :
    ∀ (k used : Nat) (pool : List (Nat × Player)),
      (pickVictims rand used k pool).length = min k pool.length
  | 0, _, pool => by simp [pickVictims]
  | _ + 1, _, [] => by simp [pickVictims]
  | k + 1, used, x :: xs => by
    have hj : rand used % (x :: xs).length < (x :: xs).length :=
      Nat.mod_lt _ (by simp)
    have ih := pickVictims_length rand k (used + 1)
      ((x :: xs).eraseIdx (rand used % (x :: xs).length))
    rw [List.length_eraseIdx, if_pos hj] at ih
    simp only [List.length_cons] at ih hj ⊢
    simp only [pickVictims, List.length_cons, ih]
    omega

/-- Every drawn victim comes from the pool. -/
theorem pickVictims_subset (rand : Nat → Nat) (k used : Nat)
    (pool : List (Nat × Player)) : pickVictims rand used k pool ⊆ pool := by
  obtain ⟨rest, hperm⟩ := pickVictims_perm rand k used pool
  intro a ha
  exact hperm.symm.subset (List.mem_append_left rest ha)

/-- When pool positions are distinct, the drawn victims occupy distinct
positions (no pool entry is drawn twice). -/
theorem pickVictims_nodup_fst (rand : Nat → Nat) (k used : Nat)
    (pool : List (Nat × Player)) (h : (pool.map Prod.fst).Nodup) :
    ((pickVictims rand used k pool).map Prod.fst).Nodup := by
  obtain ⟨rest, hperm⟩ := pickVictims_perm rand k used pool
  have h2 : ((pickVictims rand used k pool ++ rest).map Prod.fst).Nodup :=
    (hperm.map Prod.fst).nodup h
  rw [List.map_append] at h2
  exact h2.of_append_left

/-- Stable insertion permutes to a cons. -/
theorem insertByLiability_perm (x : Nat × Player) (l : List (Nat × Player)) :
    (insertByLiability x l).Perm (x :: l) := by
  induction l with
  | nil => simp [insertByLiability]
  | cons y ys ih =>
    by_cases h : remainingLiability x.2 < remainingLiability y.2
    · simp only [insertByLiability, if_pos h]
      exact (ih.cons y).trans (List.Perm.swap x y ys)
    · simp [insertByLiability, if_neg h]

/-- The candidate sort is a permutation of its input. -/
theorem sortByLiability_perm (l : List (Nat × Player)) : (sortByLiability l).Perm l := by
  induction l with
  | nil => rfl
  | cons x xs ih =>
    exact (insertByLiability_perm x (sortByLiability xs)).trans (ih.cons x)

/-- Stable insertion preserves the descending-liability ordering. -/
theorem insertByLiability_pairwise (x : Nat × Player) (l : List (Nat × Player))
    (h : List.Pairwise liabilityGE l) :
    List.Pairwise liabilityGE (insertByLiability x l) := by
  induction l with
  | nil => simp [insertByLiability]
  | cons y ys ih =>
    rcases List.pairwise_cons.1 h with ⟨hy, hys⟩
    by_cases hcmp : remainingLiability x.2 < remainingLiability y.2
    · simp only [insertByLiability, if_pos hcmp]
      refine List.pairwise_cons.2 ⟨?_, ih hys⟩
      intro z hz
      rcases List.mem_cons.1 ((insertByLiability_perm x ys).subset hz) with rfl | hzys
      · exact le_of_lt hcmp
      · exact hy z hzys
    · simp only [insertByLiability, if_neg hcmp]
      refine List.pairwise_cons.2 ⟨?_, h⟩
      intro z hz
      rcases List.mem_cons.1 hz with rfl | hzys
      · exact le_of_not_lt hcmp
      · exact le_trans (hy z hzys) (le_of_not_lt hcmp)

/-- The candidate sort ranks descending by remaining liability. -/
theorem sortByLiability_pairwise (l : List (Nat × Player)) :
    List.Pairwise liabilityGE (sortByLiability l) := by
  induction l with
  | nil => simp [sortByLiability]
  | cons x xs ih => exact insertByLiability_pairwise x (sortByLiability xs) ih

/-- There are at most 30 guillotine candidates. -/
theorem guillotineCandidates_length (q : List Player) :
    (guillotineCandidates q).length ≤ 30 := by
  simp [guillotineCandidates]

/-- Candidate positions are pairwise distinct. -/
theorem guillotineCandidates_nodup_fst (q : List Player) :
    ((guillotineCandidates q).map Prod.fst).Nodup := by
  have h0 : (q.enum.map Prod.fst).Nodup := by
    rw [show q.enum = List.enumFrom 0 q from rfl, List.enumFrom_map_fst]
    exact List.nodup_range' 0 q.length
  have h1 : ((q.enum.filter (fun ip => !ip.2.slashed)).map Prod.fst).Nodup :=
    ((List.filter_sublist q.enum).map Prod.fst).nodup h0
  have h2 : ((sortByLiability (q.enum.filter (fun ip => !ip.2.slashed))).map Prod.fst).Nodup :=
    (((sortByLiability_perm _).map Prod.fst).symm).nodup h1
  exact ((List.take_sublist 30 _).map Prod.fst).nodup h2

/-- Every candidate is a non-slashed member of the queue at its recorded
position. -/
theorem guillotineCandidates_mem (q : List Player) (c : Nat × Player)
    (h : c ∈ guillotineCandidates q) : c ∈ q.enum ∧ c.2.slashed = false := by
  have h1 : c ∈ sortByLiability (q.enum.filter (fun ip => !ip.2.slashed)) :=
    (List.take_sublist 30 _).subset h
  have h2 : c ∈ q.enum.filter (fun ip => !ip.2.slashed) :=
    (sortByLiability_perm _).subset h1
  rcases List.mem_filter.1 h2 with ⟨hmem, hsl⟩
  exact ⟨hmem, by simpa using hsl⟩

/-- Candidates are ranked descending by remaining liability. -/
theorem guillotineCandidates_sorted (q : List Player) :
    List.Pairwise liabilityGE (guillotineCandidates q) :=
  (sortByLiability_pairwise _).sublist (List.take_sublist 30 _)

/-- C9: the guillotine changes only the target and slashed fields of the
victims it selects: queue length and order are unchanged, every queued
participant's id, deposit, collected, entryRound, timestamp and multiplier
are unchanged pointwise, and every ledger field (protocolBalance,
totalDeposited, exit counters, round, chart series, tick counter) is
unchanged. -/
theorem guillotine_frame (rand : Nat → Nat) (s : EngineState) :
    (triggerGuillotine rand s).queue.length = s.queue.length ∧
    (triggerGuillotine rand s).queue.map Player.id = s.queue.map Player.id ∧
    (triggerGuillotine rand s).queue.map Player.deposit = s.queue.map Player.deposit ∧
    (triggerGuillotine rand s).queue.map Player.collected = s.queue.map Player.collected ∧
    (triggerGuillotine rand s).queue.map Player.entryRound = s.queue.map Player.entryRound ∧
    (triggerGuillotine rand s).queue.map Player.timestamp = s.queue.map Player.timestamp ∧
    (triggerGuillotine rand s).queue.map Player.multiplier = s.queue.map Player.multiplier ∧
    (triggerGuillotine rand s).protocolBalance = s.protocolBalance ∧
    (triggerGuillotine rand s).totalDeposited = s.totalDeposited ∧
    (triggerGuillotine rand s).historyCount = s.historyCount ∧
    (triggerGuillotine rand s).historySum = s.historySum ∧
    (triggerGuillotine rand s).currentRound = s.currentRound ∧
    (triggerGuillotine rand s).chartData = s.chartData ∧
    (triggerGuillotine rand s).tickCount = s.tickCount := by
  obtain ⟨v, hv⟩ := triggerGuillotine_shape rand s
  rw [hv]
  exact ⟨slashAt_length v s.queue,
    slashAt_map_proj Player.id (fun _ => rfl) v s.queue,
    slashAt_map_proj Player.deposit (fun _ => rfl) v s.queue,
    slashAt_map_proj Player.collected (fun _ => rfl) v s.queue,
    slashAt_map_proj Player.entryRound (fun _ => rfl) v s.queue,
    slashAt_map_proj Player.timestamp (fun _ => rfl) v s.queue,
    slashAt_map_proj Player.multiplier (fun _ => rfl) v s.queue,
    rfl, rfl, rfl, rfl, rfl, rfl, rfl⟩

/-- Pointwise reading of `slashAt`: listed positions are slashed, the rest
are untouched. -/
theorem slashAt_getElem (victims : List Nat) (q : List Player) (i : Nat) :
    (slashAt victims q)[i]? =
      q[i]?.map (fun p => if i ∈ victims then slashPlayer p else p) := by
  simp only [slashAt, List.getElem?_map, List.getElem?_enum]
  cases q[i]? <;> simp

/-- C6: the guillotine is a no-op when the queue has fewer than 5 members;
otherwise its candidate pool holds at most 30 entries, all non-slashed
members ranked descending by remaining liability (stable in queue order),
it draws min(10, pool size) victims at pairwise-distinct queue positions
from that pool without replacement, rewrites exactly the victim positions
by the 20% target haircut plus the slashed flag, leaves every other
position untouched, and never changes any collected amount. -/
theorem guillotine_selection (rand : Nat → Nat) (s : EngineState) :
    (s.queue.length < 5 → triggerGuillotine rand s = s) ∧
    (5 ≤ s.queue.length →
      (guillotineCandidates s.queue).length ≤ 30 ∧
      List.Pairwise liabilityGE (guillotineCandidates s.queue) ∧
      (∀ c ∈ guillotineCandidates s.queue, c ∈ s.queue.enum ∧ c.2.slashed = false) ∧
      (pickVictims rand 0 10 (guillotineCandidates s.queue)).length
        = min 10 (guillotineCandidates s.queue).length ∧
      ((pickVictims rand 0 10 (guillotineCandidates s.queue)).map Prod.fst).Nodup ∧
      (∀ v ∈ pickVictims rand 0 10 (guillotineCandidates s.queue),
          v ∈ guillotineCandidates s.queue) ∧
      (∀ i : Nat, (triggerGuillotine rand s).queue[i]? =
        s.queue[i]?.map (fun p =>
          if i ∈ (pickVictims rand 0 10 (guillotineCandidates s.queue)).map Prod.fst then
            slashPlayer p
          else p)) ∧
      (triggerGuillotine rand s).queue.map Player.collected
        = s.queue.map Player.collected) := by
  constructor
  · intro h
    simp [triggerGuillotine, h]
  · intro h
    have hq : (triggerGuillotine rand s).queue =
        slashAt ((pickVictims rand 0 10 (guillotineCandidates s.queue)).map Prod.fst)
          s.queue := by
      by_cases h2 : (guillotineCandidates s.queue).length = 0
      · have hnil : guillotineCandidates s.queue = [] := List.length_eq_zero.1 h2
        simp [triggerGuillotine, Nat.not_lt.2 h, h2, hnil, pickVictims, slashAt_nil]
      · simp [triggerGuillotine, Nat.not_lt.2 h, h2]
    refine ⟨guillotineCandidates_length _, guillotineCandidates_sorted _,
      guillotineCandidates_mem _, pickVictims_length rand 10 0 _,
      pickVictims_nodup_fst rand 10 0 _ (guillotineCandidates_nodup_fst _),
      fun v hv => pickVictims_subset rand 10 0 _ hv, ?_, ?_⟩
    · intro i
      rw [hq, slashAt_getElem]
    · rw [hq]
      exact slashAt_map_proj Player.collected (fun _ => rfl) _ s.queue

/-- Witness for the guillotine selection theorem at a six-member queue. -/
theorem guillotine_selection_witness :
    5 ≤ stateG.queue.length ∧
    (∀ i : Nat, (triggerGuillotine rand0 stateG).queue[i]? =
      stateG.queue[i]?.map (fun p =>
        if i ∈ (pickVictims rand0 0 10 (guillotineCandidates stateG.queue)).map Prod.fst then
          slashPlayer p
        else p)) ∧
    ((pickVictims rand0 0 10 (guillotineCandidates stateG.queue)).map Prod.fst).Nodup :=
  ⟨by decide,
    (((guillotine_selection rand0 stateG).2 (by decide)).2.2.2.2.2.2).1,
    ((guillotine_selection rand0 stateG).2 (by decide)).2.2.2.2.1⟩

/-- The deposit queue after a call is the sweep survivors of the assembled
pre-sweep queue. -/
theorem processDeposit_queue (cfg : Config) (rand : Nat → Nat) (now : ℚ) (fresh : Nat)
    (amount : ℚ) (isSystem : Bool) (s : EngineState) :
    (processDeposit cfg rand now fresh amount isSystem s).queue =
      (sweep cfg.winnersTaxEnabled isSystem now
        (preSweepQueue cfg rand now fresh amount isSystem s)).stays := by
  cases isSystem <;> rfl

/-- The tick/guillotine step preserves any projection that `slashPlayer`
preserves. -/
theorem tickAndGuillotine_map_proj {α : Type} (g : Player → α)
    (hg : ∀ p, g (slashPlayer p) = g p) (cfg : Config) (rand : Nat → Nat) (s : EngineState) :
    (tickAndGuillotine cfg rand s).queue.map g = s.queue.map g := by
  simp only [tickAndGuillotine]
  split
  · obtain ⟨v, hv⟩ := triggerGuillotine_shape rand { s with tickCount := s.tickCount + 1 }
    rw [hv]
    exact slashAt_map_proj g hg v _
  · rfl

/-- The tick/guillotine step leaves every ledger field unchanged. -/
theorem tickAndGuillotine_frame (cfg : Config) (rand : Nat → Nat) (s : EngineState) :
    (tickAndGuillotine cfg rand s).protocolBalance = s.protocolBalance ∧
    (tickAndGuillotine cfg rand s).historySum = s.historySum ∧
    (tickAndGuillotine cfg rand s).historyCount = s.historyCount ∧
    (tickAndGuillotine cfg rand s).totalDeposited = s.totalDeposited ∧
    (tickAndGuillotine cfg rand s).currentRound = s.currentRound := by
  simp only [tickAndGuillotine]
  split
  · obtain ⟨v, hv⟩ := triggerGuillotine_shape rand { s with tickCount := s.tickCount + 1 }
    rw [hv]
    exact ⟨rfl, rfl, rfl, rfl, rfl⟩
  · exact ⟨rfl, rfl, rfl, rfl, rfl⟩

/-- Collected amounts carried over by an equal collected-projection stay
nonnegative. -/
theorem nonneg_of_map_collected_eq {l m : List Player}
    (h : l.map Player.collected = m.map Player.collected)
    (hm : ∀ p ∈ m, 0 ≤ p.collected) : ∀ p ∈ l, 0 ≤ p.collected := by
  intro p hp
  have h2 : p.collected ∈ m.map Player.collected := by
    rw [← h]
    exact List.mem_map_of_mem Player.collected hp
  rcases List.mem_map.1 h2 with ⟨q, hq, hqe⟩
  rw [← hqe]
  exact hm q hq

/-- The yield share only ever adds a nonnegative credit. -/
theorem applyYield_nonneg (yieldPool : ℚ) (q : List Player)
    (h : ∀ p ∈ q, 0 ≤ p.collected) : ∀ p ∈ applyYield yieldPool q, 0 ≤ p.collected := by
  intro p hp
  unfold applyYield at hp
  split at hp
  case isTrue hc =>
    rcases List.mem_map.1 hp with ⟨q0, hq0, rfl⟩
    have hlen : (0 : ℚ) < q.length := by exact_mod_cast hc.2
    have hshare : 0 ≤ yieldPool / (q.length : ℚ) := le_of_lt (div_pos hc.1 hlen)
    exact add_nonneg (h q0 hq0) hshare
  case isFalse => exact h p hp

/-- The head allocation only ever adds nonnegative payments. -/
theorem distributeHead_nonneg : ∀ (pool : ℚ) (l : List Player),
    (∀ p ∈ l, 0 ≤ p.collected) → ∀ p ∈ (distributeHead pool l).2, 0 ≤ p.collected
  | pool, [], h => by simp [distributeHead]
  | pool, q :: ps, h => by
    intro p hp
    simp only [distributeHead] at hp
    by_cases h0 : pool ≤ 0
    · rw [if_pos h0] at hp
      exact h p hp
    · rw [if_neg h0] at hp
      by_cases h1 : q.target - q.collected ≤ 0
      · rw [if_pos h1] at hp
        rcases List.mem_cons.1 hp with hpq | hp2
        · rw [hpq]
          exact h q (List.mem_cons_self q ps)
        · exact distributeHead_nonneg pool ps
            (fun r hr => h r (List.mem_cons_of_mem q hr)) p hp2
      · rw [if_neg h1] at hp
        by_cases h2 : pool < q.target - q.collected
        · rw [if_pos h2] at hp
          rcases List.mem_cons.1 hp with hpq | hp2
          · rw [hpq]
            exact add_nonneg (h q (List.mem_cons_self q ps)) (le_of_lt (lt_of_not_le h0))
          · exact h p (List.mem_cons_of_mem q hp2)
        · rw [if_neg h2] at hp
          rcases List.mem_cons.1 hp with hpq | hp2
          · rw [hpq]
            exact add_nonneg (h q (List.mem_cons_self q ps)) (le_of_lt (lt_of_not_le h1))
          · exact distributeHead_nonneg (pool - (q.target - q.collected)) ps
              (fun r hr => h r (List.mem_cons_of_mem q hr)) p hp2

/-- A deposit leaves every surviving queue member nonnegative and strictly
more than EPSILON below its target (the sweep removes the rest). -/
theorem processDeposit_inv (cfg : Config) (rand : Nat → Nat) (now : ℚ) (fresh : Nat)
    (amount : ℚ) (isSystem : Bool) (s : EngineState)
    (h : ∀ p ∈ s.queue, 0 ≤ p.collected) :
    ∀ p ∈ (processDeposit cfg rand now fresh amount isSystem s).queue,
      0 ≤ p.collected ∧ p.collected < p.target - EPSILON := by
  intro p hp
  rw [processDeposit_queue, sweep_stays_eq] at hp
  rcases List.mem_filter.1 hp with ⟨hmem, hcond⟩
  have hlt : p.collected < p.target - EPSILON := by
    have hc2 : ¬(p.target - EPSILON ≤ p.collected) := by simpa [exitReady] using hcond
    exact lt_of_not_le hc2
  refine ⟨?_, hlt⟩
  unfold preSweepQueue at hmem
  rcases List.mem_append.1 hmem with hmem2 | hnew
  · have hg : ∀ r ∈ (tickAndGuillotine cfg rand s).queue, 0 ≤ r.collected :=
      nonneg_of_map_collected_eq
        (tickAndGuillotine_map_proj Player.collected (fun _ => rfl) cfg rand s) h
    exact distributeHead_nonneg _ _ (applyYield_nonneg _ _ hg) p hmem2
  · have hpn : p = mkPlayer cfg now fresh amount isSystem
        (tickAndGuillotine cfg rand s).queue.length
        (tickAndGuillotine cfg rand s).currentRound := by simpa using hnew
    rw [hpn]
    simp [mkPlayer]

/-- Settlement leaves an empty queue or a single fresh seed, in either case
satisfying the queue bound. -/
theorem handleMidnightReset_inv (cfg : Config) (rand : Nat → Nat) (now : ℚ) (fresh : Nat)
    (s : EngineState) :
    ∀ p ∈ (handleMidnightReset cfg rand now fresh s).queue,
      0 ≤ p.collected ∧ p.collected < p.target - EPSILON := by
  simp only [handleMidnightReset]
  split <;> try split
  all_goals first
    | exact processDeposit_inv cfg rand now fresh 100 true _ (fun p hp => absurd hp (by simp))
    | intro p hp; simp at hp

/-- C2: in every engine state reachable by deposits, settlements and resets,
every queued participant satisfies 0 ≤ collected ≤ target + EPSILON; the
sweep at the end of each operation enforces it even though the yield credit
is uncapped and the guillotine can push a target below collected
mid-operation. -/
theorem queue_collected_bounds (cfg : Config) (ops : List Op) (p : Player)
    (hp : p ∈ (runOps cfg ops).queue) :
    0 ≤ p.collected ∧ p.collected ≤ p.target + EPSILON := by
  have main : ∀ (l : List Op) (s : EngineState),
      (∀ q ∈ s.queue, 0 ≤ q.collected ∧ q.collected < q.target - EPSILON) →
      ∀ q ∈ (l.foldl (applyOp cfg) s).queue,
        0 ≤ q.collected ∧ q.collected < q.target - EPSILON := by
    intro l
    induction l with
    | nil => intro s hs; exact hs
    | cons o os ih =>
      intro s hs
      apply ih
      cases o with
      | deposit rand now fresh amount isSystem =>
        exact processDeposit_inv cfg rand now fresh amount isSystem s
          (fun q hq => (hs q hq).1)
      | settle rand now fresh => exact handleMidnightReset_inv cfg rand now fresh s
      | reset => intro q hq; simp [applyOp, initialState] at hq
  have h0 : ∀ q ∈ initialState.queue, 0 ≤ q.collected ∧ q.collected < q.target - EPSILON := by
    intro q hq; simp [initialState] at hq
  have hres := main ops initialState h0 p hp
  have heps : (0 : ℚ) ≤ EPSILON := by norm_num [EPSILON]
  exact ⟨hres.1, by linarith [hres.2]⟩

/-- Witness: the participant queued by a single 100 deposit satisfies the
collected bounds. -/
theorem queue_collected_bounds_witness :
    0 ≤ (⟨.user 0, 100, 200, 0, 1, 0, false, none⟩ : Player).collected ∧
    (⟨.user 0, 100, 200, 0, 1, 0, false, none⟩ : Player).collected ≤
      (⟨.user 0, 100, 200, 0, 1, 0, false, none⟩ : Player).target + EPSILON :=
  queue_collected_bounds cfg0 [.deposit rand0 0 0 100 false] _
    (by
      norm_num [runOps, applyOp, processDeposit, preSweepQueue, tickAndGuillotine,
        triggerGuillotine, feeOf, netOf, headPoolOf, yieldPoolOf, effMultOf, mkPlayer,
        applyYield, initialState, cfg0, rand0, distributeHead, sweep, exitReady, taxOf,
        outstandingLiability, EPSILON, FEE_PERCENT, GUILLOTINE_INTERVAL, INITIAL_RESERVE])

/-- Seed counting distributes over append. -/
theorem seedCount_append (l m : List Player) :
    seedCount (l ++ m) = seedCount l + seedCount m := by
  simp [seedCount, List.filter_append]

/-- Seed counting only reads the id projection. -/
theorem seedCount_map_id {l m : List Player}
    (h : l.map Player.id = m.map Player.id) : seedCount l = seedCount m := by
  have e : ∀ x : List Player,
      seedCount x = (x.map Player.id).countP (fun i => i == PlayerId.seed) := by
    intro x
    rw [List.countP_map]
    simp only [seedCount, List.countP_eq_length_filter]
    rfl
  rw [e, e, h]

/-- Sublists carry no more seeds. -/
theorem seedCount_sublist {l m : List Player} (h : l.Sublist m) :
    seedCount l ≤ seedCount m :=
  List.Sublist.length_le (h.filter _)

/-- The head allocation preserves any projection untouched by collected
updates. -/
theorem distributeHead_map_proj {α : Type} (g : Player → α)
    (hg : ∀ p c, g { p with collected := c } = g p) :
    ∀ (pool : ℚ) (l : List Player), ((distributeHead pool l).2).map g = l.map g
  | pool, [] => by simp [distributeHead]
  | pool, q :: ps => by
    simp only [distributeHead]
    by_cases h0 : pool ≤ 0
    · rw [if_pos h0]
    · rw [if_neg h0]
      by_cases h1 : q.target - q.collected ≤ 0
      · rw [if_pos h1]
        simp [distributeHead_map_proj g hg pool ps]
      · rw [if_neg h1]
        by_cases h2 : pool < q.target - q.collected
        · rw [if_pos h2]
          simp [hg]
        · rw [if_neg h2]
          simp [hg, distributeHead_map_proj g hg (pool - (q.target - q.collected)) ps]

/-- The yield share preserves any projection untouched by collected
updates. -/
theorem applyYield_map_proj {α : Type} (g : Player → α)
    (hg : ∀ p c, g { p with collected := c } = g p) (yieldPool : ℚ) (q : List Player) :
    (applyYield yieldPool q).map g = q.map g := by
  unfold applyYield
  split
  · simp [List.map_map, Function.comp, hg]
  · rfl

/-- A user deposit never increases the number of PROTOCOL_SEED members. -/
theorem processDeposit_seedCount_user (cfg : Config) (rand : Nat → Nat) (now : ℚ)
    (fresh : Nat) (amount : ℚ) (s : EngineState) :
    seedCount (processDeposit cfg rand now fresh amount false s).queue
      ≤ seedCount s.queue := by
  rw [processDeposit_queue, sweep_stays_eq]
  have h1 : seedCount (preSweepQueue cfg rand now fresh amount false s)
      = seedCount s.queue := by
    unfold preSweepQueue
    rw [seedCount_append]
    have hd : seedCount ((distributeHead (headPoolOf cfg (netOf amount false))
        (applyYield (yieldPoolOf cfg (netOf amount false))
          (tickAndGuillotine cfg rand s).queue)).2) = seedCount s.queue := by
      apply seedCount_map_id
      rw [distributeHead_map_proj Player.id (fun _ _ => rfl),
        applyYield_map_proj Player.id (fun _ _ => rfl),
        tickAndGuillotine_map_proj Player.id (fun _ => rfl)]
    rw [hd]
    simp [seedCount, mkPlayer]
  calc seedCount (List.filter (fun p => !exitReady p)
        (preSweepQueue cfg rand now fresh amount false s))
      ≤ seedCount (preSweepQueue cfg rand now fresh amount false s) :=
        seedCount_sublist (List.filter_sublist _)
    _ = seedCount s.queue := h1

/-- A system-seed deposit adds at most one PROTOCOL_SEED member. -/
theorem processDeposit_seedCount_system (cfg : Config) (rand : Nat → Nat) (now : ℚ)
    (fresh : Nat) (amount : ℚ) (s : EngineState) :
    seedCount (processDeposit cfg rand now fresh amount true s).queue
      ≤ seedCount s.queue + 1 := by
  rw [processDeposit_queue, sweep_stays_eq]
  have h1 : seedCount (preSweepQueue cfg rand now fresh amount true s)
      = seedCount s.queue + 1 := by
    unfold preSweepQueue
    rw [seedCount_append]
    have hd : seedCount ((distributeHead (headPoolOf cfg (netOf amount true))
        (applyYield (yieldPoolOf cfg (netOf amount true))
          (tickAndGuillotine cfg rand s).queue)).2) = seedCount s.queue := by
      apply seedCount_map_id
      rw [distributeHead_map_proj Player.id (fun _ _ => rfl),
        applyYield_map_proj Player.id (fun _ _ => rfl),
        tickAndGuillotine_map_proj Player.id (fun _ => rfl)]
    rw [hd]
    simp [seedCount, mkPlayer]
  calc seedCount (List.filter (fun p => !exitReady p)
        (preSweepQueue cfg rand now fresh amount true s))
      ≤ seedCount (preSweepQueue cfg rand now fresh amount true s) :=
        seedCount_sublist (List.filter_sublist _)
    _ = seedCount s.queue + 1 := h1

/-- Settlement leaves at most one PROTOCOL_SEED member (the reseed, when it
happens, lands in a wiped queue). -/
theorem handleMidnightReset_seedCount (cfg : Config) (rand : Nat → Nat) (now : ℚ)
    (fresh : Nat) (s : EngineState) :
    seedCount (handleMidnightReset cfg rand now fresh s).queue ≤ 1 := by
  have hsys : ∀ s0 : EngineState, s0.queue = [] →
      seedCount (processDeposit cfg rand now fresh 100 true s0).queue ≤ 1 := by
    intro s0 h0
    have h2 := processDeposit_seedCount_system cfg rand now fresh 100 s0
    rw [h0] at h2
    simpa [seedCount] using h2
  simp only [handleMidnightReset]
  split <;> try split
  all_goals first
    | exact hsys _ rfl
    | simp [seedCount]

/-- C10: in every engine state reachable by user deposits, settlements and
resets, the queue holds at most one PROTOCOL_SEED participant, because seed
deposits are issued only by settlement right after the queue wipe. -/
theorem at_most_one_seed (cfg : Config) (ops : List Op)
    (h : ∀ o ∈ ops, userDriven o) :
    seedCount (runOps cfg ops).queue ≤ 1 := by
  have main : ∀ (l : List Op) (s : EngineState), (∀ o ∈ l, userDriven o) →
      seedCount s.queue ≤ 1 → seedCount (l.foldl (applyOp cfg) s).queue ≤ 1 := by
    intro l
    induction l with
    | nil => intro s _ hs; exact hs
    | cons o os ih =>
      intro s hl hs
      apply ih _ (fun x hx => hl x (List.mem_cons_of_mem o hx))
      cases o with
      | deposit rand now fresh amount isSystem =>
        have hu : isSystem = false := hl _ (List.mem_cons_self _ _)
        subst hu
        exact le_trans (processDeposit_seedCount_user cfg rand now fresh amount s) hs
      | settle rand now fresh => exact handleMidnightReset_seedCount cfg rand now fresh s
      | reset => simp [applyOp, initialState, seedCount]
  exact main ops initialState h (by simp [initialState, seedCount])

/-- Witness: one user deposit keeps the seed count at most one. -/
theorem at_most_one_seed_witness :
    seedCount (runOps cfg0 [.deposit rand0 0 0 100 false]).queue ≤ 1 :=
  at_most_one_seed cfg0 [.deposit rand0 0 0 100 false]
    (by
      intro o ho
      simp only [List.mem_singleton] at ho
      subst ho
      rfl)

/-- Remaining principals are nonnegative. -/
theorem totalRemainingPrincipal_nonneg (q : List Player) :
    0 ≤ totalRemainingPrincipal q := by
  unfold totalRemainingPrincipal
  apply List.sum_nonneg
  intro x hx
  rcases List.mem_map.1 hx with ⟨p, _, rfl⟩
  exact le_max_left 0 _

/-- Unfolding of the remaining-principal sum over a cons. -/
theorem totalRemainingPrincipal_cons (p : Player) (ps : List Player) :
    totalRemainingPrincipal (p :: ps)
      = max 0 (p.deposit - p.collected) + totalRemainingPrincipal ps := by
  simp [totalRemainingPrincipal]

/-- The refund walk spends exactly the refundable part of the surplus: its
leftover is surplus − min(surplus, total remaining principal). -/
theorem refundWalk_leftover : ∀ (surplus : ℚ) (q : List Player), 0 ≤ surplus →
    (refundWalk surplus q).1
      = surplus - min surplus (totalRemainingPrincipal q)
  | surplus, [], h => by
    simp [refundWalk, totalRemainingPrincipal, min_eq_right h]
  | surplus, p :: ps, h => by
    simp only [refundWalk]
    rw [totalRemainingPrincipal_cons]
    have hTps := totalRemainingPrincipal_nonneg ps
    have hrp : (0:ℚ) ≤ max 0 (p.deposit - p.collected) := le_max_left 0 _
    by_cases h0 : surplus ≤ 0
    · rw [if_pos h0]
      have hs0 : surplus = 0 := le_antisymm h0 h
      rw [hs0]
      rw [min_eq_left (by linarith)]
      ring
    · rw [if_neg h0]
      by_cases h1 : 0 < max 0 (p.deposit - p.collected)
      · rw [if_pos h1]
        have hmin : min surplus (max 0 (p.deposit - p.collected)) ≤ surplus :=
          min_le_left _ _
        have hnn : 0 ≤ surplus - min surplus (max 0 (p.deposit - p.collected)) := by
          linarith
        rw [refundWalk_leftover (surplus - min surplus (max 0 (p.deposit - p.collected))) ps hnn]
        rcases le_total surplus (max 0 (p.deposit - p.collected)) with hc | hc
        · rw [min_eq_left hc, min_eq_left
            (by linarith : surplus ≤ max 0 (p.deposit - p.collected) + totalRemainingPrincipal ps)]
          rw [show surplus - surplus = 0 by ring, min_eq_left hTps]
          ring
        · rw [min_eq_right hc]
          rcases le_total (surplus - max 0 (p.deposit - p.collected))
              (totalRemainingPrincipal ps) with hd | hd
          · rw [min_eq_left hd, min_eq_left (by linarith :
              surplus ≤ max 0 (p.deposit - p.collected) + totalRemainingPrincipal ps)]
            ring
          · rw [min_eq_right hd, min_eq_right (by linarith :
              max 0 (p.deposit - p.collected) + totalRemainingPrincipal ps ≤ surplus)]
            ring
      · rw [if_neg h1]
        have hrp0 : max 0 (p.deposit - p.collected) = 0 :=
          le_antisymm (not_lt.1 h1) hrp
        rw [refundWalk_leftover surplus ps h, hrp0, zero_add]

/-- C3 amended: performSettlement refunds principal greedily from the
surplus above the floor — the leftover is surplus − min(surplus, total
remaining principal) — and sets the reserve to floor + leftover only when
the surplus was positive; when the surplus is 0 (including a reserve below
the floor) the reserve is left untouched by the refund phase; it then wipes
the queue, advances the round, and if at least 100 remains deducts 100 and
processes a 100-unit system-seed deposit. -/
theorem settlement_characterization (cfg : Config) (rand : Nat → Nat) (now : ℚ)
    (fresh : Nat) (s : EngineState) :
    (refundWalk (max 0 (s.protocolBalance - INITIAL_RESERVE)) s.queue).1
      = max 0 (s.protocolBalance - INITIAL_RESERVE)
        - min (max 0 (s.protocolBalance - INITIAL_RESERVE))
            (totalRemainingPrincipal s.queue) ∧
    handleMidnightReset cfg rand now fresh s =
      (if (100:ℚ) ≤ settledBalance s then
        processDeposit cfg rand now fresh 100 true
          { s with
              queue := []
              currentRound := s.currentRound + 1
              protocolBalance := settledBalance s - 100 }
      else
        { s with
            queue := []
            currentRound := s.currentRound + 1
            protocolBalance := settledBalance s }) := by
  constructor
  · exact refundWalk_leftover _ _ (le_max_left 0 _)
  · simp only [handleMidnightReset, settledBalance]
    by_cases h1 : (0:ℚ) < max 0 (s.protocolBalance - INITIAL_RESERVE)
    · simp only [if_pos h1]
    · simp only [if_neg h1]

/-- The deposit's reserve delta is the fee (for non-system calls) plus the
sweep's winners-tax total. -/
theorem processDeposit_protocolBalance (cfg : Config) (rand : Nat → Nat) (now : ℚ)
    (fresh : Nat) (amount : ℚ) (isSystem : Bool) (s : EngineState) :
    (processDeposit cfg rand now fresh amount isSystem s).protocolBalance
      = s.protocolBalance + (if isSystem then 0 else feeOf amount)
        + (sweep cfg.winnersTaxEnabled isSystem now
            (preSweepQueue cfg rand now fresh amount isSystem s)).tax := by
  obtain ⟨hb, _, _, _, _⟩ := tickAndGuillotine_frame cfg rand s
  cases isSystem <;> simp [processDeposit, hb]

/-- The deposit's exit-value delta is the sweep's exit sum. -/
theorem processDeposit_historySum (cfg : Config) (rand : Nat → Nat) (now : ℚ)
    (fresh : Nat) (amount : ℚ) (isSystem : Bool) (s : EngineState) :
    (processDeposit cfg rand now fresh amount isSystem s).historySum
      = s.historySum + (sweep cfg.winnersTaxEnabled isSystem now
          (preSweepQueue cfg rand now fresh amount isSystem s)).exitSum := by
  obtain ⟨_, hh, _, _, _⟩ := tickAndGuillotine_frame cfg rand s
  cases isSystem <;> simp [processDeposit, hh]

/-- C4 amended: the winners-tax exemption is scoped to the deposit call,
not to the exiting participant. The sweep's tax is the sum of per-exit
taxes, the per-exit tax ignores the participant's id entirely (so
PROTOCOL_SEED exits are taxed like any other) and equals 20% of profit
exactly when the toggle is on, the call is non-system, the exit is within
10000 ms of entry and profit is positive; a system-seed call collects no
tax; the tax never alters the surviving queue, the exit counters, or the
recorded collected amounts; and the deposit credits fee plus tax to the
reserve. -/
theorem winners_tax_call_scoped :
    (∀ (w i : Bool) (now : ℚ) (l : List Player),
      (sweep w i now l).tax
        = ((l.filter (fun p => exitReady p)).map (taxOf w i now)).sum) ∧
    (∀ (w : Bool) (now : ℚ) (p : Player) (j : PlayerId),
      taxOf w false now { p with id := j } = taxOf w false now p) ∧
    (∀ (now : ℚ) (p : Player),
      taxOf true false now p =
        if now - p.timestamp < 10000 ∧ 0 < p.target - p.deposit then
          (p.target - p.deposit) * (20/100)
        else 0) ∧
    (∀ (w : Bool) (now : ℚ) (l : List Player), (sweep w true now l).tax = 0) ∧
    (∀ (w i : Bool) (now : ℚ) (l : List Player),
      (sweep w i now l).stays = (sweep false i now l).stays ∧
      (sweep w i now l).exitCount = (sweep false i now l).exitCount ∧
      (sweep w i now l).exitSum = (sweep false i now l).exitSum) ∧
    (∀ (cfg : Config) (rand : Nat → Nat) (now : ℚ) (fresh : Nat) (amount : ℚ)
        (s : EngineState),
      (processDeposit cfg rand now fresh amount false s).protocolBalance
        = s.protocolBalance + feeOf amount
          + (sweep cfg.winnersTaxEnabled false now
              (preSweepQueue cfg rand now fresh amount false s)).tax) := by
  refine ⟨sweep_tax_eq, fun w now p j => rfl, ?_, ?_, ?_, ?_⟩
  · intro now p
    simp [taxOf]
  · intro w now l
    rw [sweep_tax_eq]
    apply List.sum_eq_zero
    intro x hx
    rcases List.mem_map.1 hx with ⟨p, _, rfl⟩
    simp [taxOf]
  · intro w i now l
    exact ⟨by rw [sweep_stays_eq, sweep_stays_eq],
      by rw [sweep_exitCount_eq, sweep_exitCount_eq],
      by rw [sweep_exitSum_eq, sweep_exitSum_eq]⟩
  · intro cfg rand now fresh amount s
    simpa using processDeposit_protocolBalance cfg rand now fresh amount false s

/-- Total need is nonnegative. -/
theorem totalNeed_nonneg (q : List Player) : 0 ≤ totalNeed q := by
  unfold totalNeed
  apply List.sum_nonneg
  intro x hx
  rcases List.mem_map.1 hx with ⟨p, _, rfl⟩
  exact le_max_left 0 _

/-- Unfolding of total need over a cons. -/
theorem totalNeed_cons (p : Player) (ps : List Player) :
    totalNeed (p :: ps) = max 0 (p.target - p.collected) + totalNeed ps := by
  simp [totalNeed]

/-- Unfolding of total collected over a cons. -/
theorem totalCollected_cons (p : Player) (ps : List Player) :
    totalCollected (p :: ps) = p.collected + totalCollected ps := by
  simp [totalCollected]

/-- A member strictly below target − EPSILON keeps its collected amount. -/
theorem finalCollected_of_lt {p : Player} (h : p.collected < p.target - EPSILON) :
    finalCollected p = p.collected := by
  simp [finalCollected, exitReady, not_le.2 h]

/-- A member within EPSILON of target is clamped to its target. -/
theorem finalCollected_of_ge {p : Player} (h : p.target - EPSILON ≤ p.collected) :
    finalCollected p = p.target := by
  simp [finalCollected, exitReady, h]

/-- Over an invariant-satisfying queue the recorded totals coincide. -/
theorem sum_finalCollected_of_inv (l : List Player)
    (h : ∀ p ∈ l, p.collected < p.target - EPSILON) :
    (l.map finalCollected).sum = totalCollected l := by
  unfold totalCollected
  induction l with
  | nil => simp
  | cons p ps ih =>
    simp only [List.map_cons, List.sum_cons]
    rw [finalCollected_of_lt (h p (List.mem_cons_self p ps)),
      ih (fun q hq => h q (List.mem_cons_of_mem p hq))]

/-- Head-allocation conservation up to the sweep clamp: against an
invariant-satisfying queue and a nonnegative pool, the recorded increase
over the queue lies between min(pool, total need) and that value plus
EPSILON. -/
theorem distributeHead_final_bounds : ∀ (pool : ℚ) (l : List Player),
    0 ≤ pool →
    (∀ p ∈ l, 0 ≤ p.collected ∧ p.collected < p.target - EPSILON) →
    min pool (totalNeed l)
      ≤ (((distributeHead pool l).2).map finalCollected).sum - totalCollected l ∧
    (((distributeHead pool l).2).map finalCollected).sum - totalCollected l
      ≤ min pool (totalNeed l) + EPSILON
  | pool, [], hp, _ => by
    have he : (0:ℚ) ≤ EPSILON := by norm_num [EPSILON]
    simp [distributeHead, totalCollected, totalNeed, min_eq_right hp, he]
  | pool, p :: ps, hp, hinv => by
    have he : (0:ℚ) < EPSILON := by norm_num [EPSILON]
    have hpc := hinv p (List.mem_cons_self p ps)
    have hinv2 : ∀ q ∈ ps, 0 ≤ q.collected ∧ q.collected < q.target - EPSILON :=
      fun q hq => hinv q (List.mem_cons_of_mem p hq)
    have hneed : EPSILON < p.target - p.collected := by linarith [hpc.2]
    have hneedpos : (0:ℚ) < p.target - p.collected := by linarith
    have hTps : 0 ≤ totalNeed ps := totalNeed_nonneg ps
    have hps : (ps.map finalCollected).sum = totalCollected ps :=
      sum_finalCollected_of_inv ps (fun q hq => (hinv2 q hq).2)
    rw [totalNeed_cons, totalCollected_cons, max_eq_right (le_of_lt hneedpos)]
    simp only [distributeHead]
    by_cases h0 : pool ≤ 0
    · rw [if_pos h0]
      have hp0 : pool = 0 := le_antisymm h0 hp
      subst hp0
      have hf : finalCollected p = p.collected := finalCollected_of_lt hpc.2
      simp only [List.map_cons, List.sum_cons, hf, hps]
      rw [min_eq_left (by linarith)]
      constructor <;> linarith
    · rw [if_neg h0]
      have hpool : (0:ℚ) < pool := lt_of_not_le h0
      rw [if_neg (not_le.2 hneedpos)]
      by_cases h2 : pool < p.target - p.collected
      · rw [if_pos h2]
        simp only [List.map_cons, List.sum_cons, hps]
        by_cases h3 : p.target - EPSILON ≤ p.collected + pool
        · have hf : finalCollected { p with collected := p.collected + pool } = p.target :=
            finalCollected_of_ge h3
          rw [hf, min_eq_left (by linarith)]
          constructor <;> linarith
        · have hf : finalCollected { p with collected := p.collected + pool }
              = p.collected + pool :=
            finalCollected_of_lt (lt_of_not_le h3)
          rw [hf, min_eq_left (by linarith)]
          constructor <;> linarith
      · rw [if_neg h2]
        have hle : p.target - p.collected ≤ pool := not_lt.1 h2
        have ihb := distributeHead_final_bounds (pool - (p.target - p.collected)) ps
          (by linarith) hinv2
        have hf : finalCollected
            { p with collected := p.collected + (p.target - p.collected) } = p.target :=
          finalCollected_of_ge (by
            show p.target - EPSILON ≤ p.collected + (p.target - p.collected)
            linarith)
        simp only [List.map_cons, List.sum_cons, hf]
        have hmin : min pool (p.target - p.collected + totalNeed ps)
            = (p.target - p.collected)
              + min (pool - (p.target - p.collected)) (totalNeed ps) := by
          rcases le_total (pool - (p.target - p.collected)) (totalNeed ps) with hc | hc
          · rw [min_eq_left hc, min_eq_left (by linarith)]
            ring
          · rw [min_eq_right hc, min_eq_right (by linarith)]
        rw [hmin]
        constructor
        · linarith [ihb.1]
        · linarith [ihb.2]

/-- The net of a user deposit spelled out. -/
theorem netOf_user (amount : ℚ) :
    netOf amount false = amount - max 1 (amount * (1/100)) := rfl

/-- A deposit of at least 1 has a nonnegative net amount. -/
theorem netOf_nonneg {amount : ℚ} (h : 1 ≤ amount) : 0 ≤ netOf amount false := by
  rw [netOf_user]
  rcases le_total (amount * (1/100)) 1 with hc | hc
  · rw [max_eq_left hc]
    linarith
  · rw [max_eq_right hc]
    linarith

/-- Under STANDARD strategy with all toggles off the pre-sweep queue is the
head allocation of the net amount followed by the new participant. -/
theorem preSweepQueue_standard (m : ℚ) (rand : Nat → Nat) (now : ℚ) (fresh : Nat)
    (amount : ℚ) (s : EngineState) :
    preSweepQueue ⟨m, .STANDARD, false, false, false⟩ rand now fresh amount false s
      = (distributeHead (netOf amount false) s.queue).2
        ++ [mkPlayer ⟨m, .STANDARD, false, false, false⟩ now fresh amount false
              s.queue.length s.currentRound] := by
  have ht : tickAndGuillotine ⟨m, .STANDARD, false, false, false⟩ rand s
      = { s with tickCount := s.tickCount + 1 } := by
    simp [tickAndGuillotine]
  unfold preSweepQueue
  rw [ht]
  simp [headPoolOf, yieldPoolOf, applyYield]

/-- Recorded totals split into surviving collected plus exited targets. -/
theorem sum_finalCollected_split (l : List Player) :
    (l.map finalCollected).sum
      = totalCollected (l.filter (fun p => !exitReady p))
        + ((l.filter (fun p => exitReady p)).map Player.target).sum := by
  induction l with
  | nil => simp [totalCollected]
  | cons p ps ih =>
    by_cases h : exitReady p <;>
      simp [h, finalCollected, ih, totalCollected, List.filter_cons] <;> ring

/-- C7 amended: under STANDARD with all toggles off, for a non-system
deposit of amount at least 1 (so the net amount is nonnegative) against a
queue whose members satisfy 0 ≤ collected < target − EPSILON, the recorded
increase of collected over the pre-existing participants lies between
min(netAmount, total need) and that value plus EPSILON — the excess stems
from the exit-sweep clamp of one partially paid participant — and the
recorded increase is exactly what the deposit call leaves behind in its
queue and exit-value counter. -/
theorem conservation_bounds (m : ℚ) (rand : Nat → Nat) (now : ℚ) (fresh : Nat)
    (amount : ℚ) (s : EngineState)
    (hm : 1 ≤ m) (hA : 1 ≤ amount)
    (hinv : ∀ p ∈ s.queue, 0 ≤ p.collected ∧ p.collected < p.target - EPSILON) :
    (min (netOf amount false) (totalNeed s.queue)
        ≤ (((distributeHead (netOf amount false) s.queue).2).map finalCollected).sum
          - totalCollected s.queue
      ∧ (((distributeHead (netOf amount false) s.queue).2).map finalCollected).sum
          - totalCollected s.queue
        ≤ min (netOf amount false) (totalNeed s.queue) + EPSILON)
    ∧ totalCollected (processDeposit ⟨m, .STANDARD, false, false, false⟩
          rand now fresh amount false s).queue
        + (processDeposit ⟨m, .STANDARD, false, false, false⟩
            rand now fresh amount false s).historySum
        - s.historySum
      = (((distributeHead (netOf amount false) s.queue).2).map finalCollected).sum := by
  have hnet : 0 ≤ netOf amount false := netOf_nonneg hA
  constructor
  · exact distributeHead_final_bounds _ _ hnet hinv
  · have honem : (1:ℚ) ≤ amount * m := by nlinarith
    have hnew : exitReady (mkPlayer ⟨m, .STANDARD, false, false, false⟩ now fresh amount
        false s.queue.length s.currentRound) = false := by
      simp only [exitReady, mkPlayer, effMultOf, EPSILON]
      norm_num
      linarith
    rw [processDeposit_queue, processDeposit_historySum, sweep_stays_eq, sweep_exitSum_eq,
      preSweepQueue_standard]
    rw [List.filter_append, List.filter_append]
    have h1 : List.filter (fun p => !exitReady p)
        [mkPlayer ⟨m, .STANDARD, false, false, false⟩ now fresh amount false
          s.queue.length s.currentRound]
        = [mkPlayer ⟨m, .STANDARD, false, false, false⟩ now fresh amount false
            s.queue.length s.currentRound] := by
      simp [hnew]
    have h2 : List.filter (fun p => exitReady p)
        [mkPlayer ⟨m, .STANDARD, false, false, false⟩ now fresh amount false
          s.queue.length s.currentRound] = [] := by
      simp [hnew]
    rw [h1, h2]
    rw [sum_finalCollected_split ((distributeHead (netOf amount false) s.queue).2)]
    simp [totalCollected, mkPlayer]
    ring

/-- Witness for the conservation bounds at a 250 deposit against a queue of
one participant 50 below its target. -/
theorem conservation_bounds_witness :
    (1:ℚ) ≤ 2 ∧ (1:ℚ) ≤ 250 ∧
    ((min (netOf 250 false) (totalNeed state7.queue)
        ≤ (((distributeHead (netOf 250 false) state7.queue).2).map finalCollected).sum
          - totalCollected state7.queue
      ∧ (((distributeHead (netOf 250 false) state7.queue).2).map finalCollected).sum
          - totalCollected state7.queue
        ≤ min (netOf 250 false) (totalNeed state7.queue) + EPSILON)
    ∧ totalCollected (processDeposit ⟨2, .STANDARD, false, false, false⟩
          rand0 0 1 250 false state7).queue
        + (processDeposit ⟨2, .STANDARD, false, false, false⟩
            rand0 0 1 250 false state7).historySum
        - state7.historySum
      = (((distributeHead (netOf 250 false) state7.queue).2).map finalCollected).sum) :=
  ⟨by norm_num, by norm_num,
    conservation_bounds 2 rand0 0 1 250 state7 (by norm_num) (by norm_num)
      (by
        intro p hp
        simp only [state7, List.mem_singleton] at hp
        subst hp
        norm_num [EPSILON])⟩
